import Mathlib

/-!
Verification of the tree-sitter Rust grammar (src/grammar.js) against its
natural-language specification.

The grammar file is declarative data: a precedence table `PREC`, production
rules with `prec` / `prec.left` / `prec.right` annotations, a `conflicts`
list, and token regexes.  This development embeds the parts of that data
that the claims are about, together with an executable precedence-climbing
parser for the infix-operator fragment of the expression grammar
(binary_expression, assignment_expression, compound_assignment_expr), whose
shift/reduce policy is exactly tree-sitter's: an operator may extend the
current expression iff its declared precedence clears the current bound, and
a left-associative operator parses its right operand with the bound raised
above its own precedence (so equal-precedence operators group to the left),
while a right-associative one would keep the bound at its own precedence.
-/

namespace RustGrammar

/-! ## The precedence table, src/grammar.js lines 13-31 -/

namespace PREC

def call : Int := 15
def field : Int := 14
def try_ : Int := 13
def unary : Int := 12
def cast : Int := 11
def multiplicative : Int := 10
def additive : Int := 9
def shift : Int := 8
def bitand : Int := 7
def bitxor : Int := 6
def bitor : Int := 5
def comparative : Int := 4
def and : Int := 3
def or : Int := 2
def range : Int := 1
def assign : Int := 0
def closure : Int := -1

end PREC

/-- Associativity of a rule annotation: `prec.left`, `prec.right`, or plain
`prec` (no associativity). -/
inductive Assoc where
  | left
  | right
  | nonAssoc
deriving DecidableEq, Repr

/-- The precedence/associativity annotation a grammar rule carries. -/
structure RuleInfo where
  level : Int
  assoc : Assoc
deriving DecidableEq, Repr

/-- src/grammar.js line 1157: `assignment_expression` is
`prec.left(PREC.assign, seq(left, "=", right))`. -/
def assignment_expression : RuleInfo := ⟨PREC.assign, Assoc.left⟩

/-- src/grammar.js line 1163: `compound_assignment_expr` is
`prec.left(PREC.assign, seq(left, op, right))` with op one of
`+= -= *= /= %= &= |= ^= <<= >>=`. -/
def compound_assignment_expr : RuleInfo := ⟨PREC.assign, Assoc.left⟩

/-- src/grammar.js line 1116: `unary_expression` is `prec(PREC.unary, ...)`
over prefix `- * !`. -/
def unary_expression : RuleInfo := ⟨PREC.unary, Assoc.nonAssoc⟩

/-- src/grammar.js line 1121: `try_expression` is `prec(PREC.try, seq(e, "?"))`. -/
def try_expression : RuleInfo := ⟨PREC.try_, Assoc.nonAssoc⟩

/-- src/grammar.js line 1126: `reference_expression` is `prec(PREC.unary, ...)`. -/
def reference_expression : RuleInfo := ⟨PREC.unary, Assoc.nonAssoc⟩

/-- src/grammar.js line 1185: `call_expression` is `prec(PREC.call, ...)`. -/
def call_expression : RuleInfo := ⟨PREC.call, Assoc.nonAssoc⟩

/-- src/grammar.js line 1397: `index_expression` is `prec(PREC.call, ...)`. -/
def index_expression : RuleInfo := ⟨PREC.call, Assoc.nonAssoc⟩

/-- src/grammar.js line 1399: `await_expression` is `prec(PREC.field, ...)`. -/
def await_expression : RuleInfo := ⟨PREC.field, Assoc.nonAssoc⟩

/-- src/grammar.js line 1405: `field_expression` is `prec(PREC.field, ...)`. -/
def field_expression : RuleInfo := ⟨PREC.field, Assoc.nonAssoc⟩

/-- src/grammar.js line 1169: `type_cast_expression` is `prec.left(PREC.cast, ...)`. -/
def type_cast_expression : RuleInfo := ⟨PREC.cast, Assoc.left⟩

/-- src/grammar.js line 1109: `range_expression` is `prec.left(PREC.range, ...)`. -/
def range_expression : RuleInfo := ⟨PREC.range, Assoc.left⟩

/-- src/grammar.js line 1369: `closure_expression` is `prec(PREC.closure, ...)`. -/
def closure_expression : RuleInfo := ⟨PREC.closure, Assoc.nonAssoc⟩

/-! ## The infix-operator fragment of the expression grammar

src/grammar.js lines 1135-1167: `binary_expression` is a choice over a
table of `prec.left(level, seq(left, op, right))` rows, and
`assignment_expression` / `compound_assignment_expr` are
`prec.left(PREC.assign, ...)`.  Operands are `_expression`; here the
non-operator operand forms are abstracted as named atoms. -/

/-- The operators of `binary_expression`'s table, src/grammar.js lines 1136-1146. -/
inductive BinOp where
  | land | lor
  | band | bor | bxor
  | cmpEq | cmpNe | cmpLt | cmpLe | cmpGt | cmpGe
  | shl | shr
  | add | sub
  | mul | div | rem
deriving DecidableEq, Repr

/-- The operators of `compound_assignment_expr`, src/grammar.js line 1165. -/
inductive CompOp where
  | addAssign | subAssign | mulAssign | divAssign | remAssign
  | andAssign | orAssign | xorAssign | shlAssign | shrAssign
deriving DecidableEq, Repr

/-- The precedence level of each `binary_expression` row,
src/grammar.js lines 1136-1146: `&&` at PREC.and, `||` at PREC.or, `&` at
PREC.bitand, `|` at PREC.bitor, `^` at PREC.bitxor, the comparisons at
PREC.comparative, `<< >>` at PREC.shift, `+ -` at PREC.additive,
`* / %` at PREC.multiplicative. -/
def binPrec : BinOp → Int
  | .land => PREC.and
  | .lor => PREC.or
  | .band => PREC.bitand
  | .bor => PREC.bitor
  | .bxor => PREC.bitxor
  | .cmpEq | .cmpNe | .cmpLt | .cmpLe | .cmpGt | .cmpGe => PREC.comparative
  | .shl | .shr => PREC.shift
  | .add | .sub => PREC.additive
  | .mul | .div | .rem => PREC.multiplicative

/-- Which of the three infix rules an infix operator token belongs to:
a `binary_expression` row, `assignment_expression`'s `=`, or a
`compound_assignment_expr` operator. -/
inductive OpKind where
  | bin (o : BinOp)
  | asg
  | casg (o : CompOp)
deriving DecidableEq, Repr

/-- The declared precedence of the rule an operator belongs to. -/
def opPrec : OpKind → Int
  | .bin o => binPrec o
  | .asg => assignment_expression.level
  | .casg _ => compound_assignment_expr.level

/-- The declared associativity of the rule an operator belongs to: every
`binary_expression` row is `prec.left`, and so are `assignment_expression`
and `compound_assignment_expr` (src/grammar.js lines 1149, 1157, 1163). -/
def opAssoc : OpKind → Assoc
  | .bin _ => Assoc.left
  | .asg => assignment_expression.assoc
  | .casg _ => compound_assignment_expr.assoc

/-- The precedence bound for an operator's right operand.  For a
left-associative operator the bound is strictly above its own level, so an
equal-precedence operator to the right does not join the right operand and
the expression groups to the left; a right-associative operator would keep
the bound at its own level.  This is tree-sitter's resolution of the
shift/reduce conflict between two uses of the same rule. -/
def rhsMin (o : OpKind) : Int :=
  match opAssoc o with
  | .left => opPrec o + 1
  | .right => opPrec o
  | .nonAssoc => opPrec o + 1

/-- A token of the infix-operator expression fragment: an atomic operand
(identifier/literal, abstracted with its text) or an infix operator. -/
inductive BTok where
  | atom (s : String)
  | op (o : OpKind)
deriving DecidableEq, Repr

/-- A parse tree of the fragment: `node (.bin o)` is a `binary_expression`
node, `node .asg` an `assignment_expression` node, `node (.casg o)` a
`compound_assignment_expr` node; `left`/`right` are the rules' fields. -/
inductive Expr where
  | name (s : String)
  | node (o : OpKind) (l r : Expr)
deriving DecidableEq, Repr

/-- The token fringe (leaves, in order) of a parse tree. -/
def fringe : Expr → List BTok
  | .name s => [.atom s]
  | .node o l r => fringe l ++ .op o :: fringe r

/-- The rule at the root of a tree, if the root is an operator node. -/
def topOp : Expr → Option OpKind
  | .name _ => none
  | .node o _ _ => some o

/-- Whether a tree is an `assignment_expression` node. -/
def isAssignNode : Expr → Bool
  | .node .asg _ _ => true
  | _ => false

/-- The root's `right` field, for operator nodes. -/
def rightField : Expr → Option Expr
  | .name _ => none
  | .node _ _ r => some r

/-- The root's `left` field, for operator nodes. -/
def leftField : Expr → Option Expr
  | .name _ => none
  | .node _ l _ => some l

/-- Whether the root operator (if any) has precedence at least `q`. -/
def topBound (q : Int) : Expr → Bool
  | .name _ => true
  | .node o _ _ => decide (q ≤ opPrec o)

/-- The parse trees the grammar's precedence policy accepts in a position
whose bound is `p`: every operator node must clear the bound, the left
child's root operator must not have lower precedence than the node's own
(an operator only extends an expression whose previous operator did not
already yield to it), and the right child lives under the `rhsMin` bound of
the node's operator. -/
def WF (p : Int) : Expr → Bool
  | .name _ => true
  | .node o l r =>
    decide (p ≤ opPrec o) && topBound (opPrec o) l && WF p l && WF (rhsMin o) r

/-- An infix operator readable at the head of the token stream. -/
def infixOf : BTok → Option OpKind
  | .atom _ => none
  | .op o => some o

/-- Parse one atomic operand. -/
def parseAtom : List BTok → Option (Expr × List BTok)
  | .atom s :: rest => some (.name s, rest)
  | _ => none

/-- Precedence climbing: starting from an already-parsed left operand `l`,
repeatedly consume an infix operator whose declared precedence is at least
`p` together with its right operand (parsed under the operator's `rhsMin`
bound), exactly tree-sitter's precedence/associativity conflict resolution
for the three infix rules.  `fuel` bounds the recursion; callers pass the
input length, which is ample. -/
def climb (fuel : Nat) (p : Int) (l : Expr) (ts : List BTok) :
    Option (Expr × List BTok) :=
  match ts with
  | [] => some (l, [])
  | t :: ts' =>
    match infixOf t with
    | none => some (l, t :: ts')
    | some o =>
      if p ≤ opPrec o then
        match fuel with
        | 0 => none
        | fuel' + 1 =>
          match parseAtom ts' with
          | none => none
          | some (r0, ts1) =>
            match climb fuel' (rhsMin o) r0 ts1 with
            | none => none
            | some (r, ts2) => climb fuel' p (.node o l r) ts2
      else some (l, t :: ts')

/-- Parse an expression of the fragment in a position with bound `p`. -/
def parseAt (p : Int) (ts : List BTok) : Option (Expr × List BTok) :=
  match parseAtom ts with
  | none => none
  | some (l, rest) => climb rest.length p l rest

/-- Parse a full `_expression`: no surrounding operator, so the bound is the
lowest level of the table (`PREC.closure`). -/
def parseExpr (ts : List BTok) : Option (Expr × List BTok) :=
  parseAt PREC.closure ts

/-! ## Spine view of a parse tree, used to prove the parser complete -/

/-- The text of the leftmost leaf of a tree. -/
def lAtomName : Expr → String
  | .name s => s
  | .node _ l _ => lAtomName l

/-- The left spine of a tree, leftmost operator first: the sequence of
(operator, right operand) pairs that rebuilds the tree from its leftmost
leaf. -/
def spineItems : Expr → List (OpKind × Expr)
  | .name _ => []
  | .node o l r => spineItems l ++ [(o, r)]

/-- Rebuild a tree from a start expression and a left spine. -/
def rebuild (acc : Expr) : List (OpKind × Expr) → Expr
  | [] => acc
  | (o, r) :: items => rebuild (.node o acc r) items

/-- The tokens contributed by a left spine: each operator followed by its
right operand's fringe. -/
def flatItems : List (OpKind × Expr) → List BTok
  | [] => []
  | (o, r) :: items => .op o :: (fringe r ++ flatItems items)

/-- No extension: the tokens ahead do not start with an infix operator that
clears the bound `p`, so climbing at `p` stops here. -/
def noExt (p : Int) : List BTok → Bool
  | .op o :: _ => decide (opPrec o < p)
  | _ => true

/-- The head operator of a spine is bounded by `q`. -/
def headLe (q : Int) : List (OpKind × Expr) → Bool
  | [] => true
  | (o, _) :: _ => decide (opPrec o ≤ q)

/-- The last operator of a spine is at least `q`. -/
def lastGe (q : Int) : List (OpKind × Expr) → Bool
  | [] => true
  | [(o, _)] => decide (q ≤ opPrec o)
  | _ :: items => lastGe q items

/-- A spine the climber can consume at bound `p`: every operator clears `p`,
consecutive operators do not increase in precedence (the earlier operator's
raised right-operand bound hands control back before a lower-or-equal one),
and every right operand is well-formed under its operator's `rhsMin` bound. -/
def chainOk (p : Int) : List (OpKind × Expr) → Bool
  | [] => true
  | (o, r) :: items =>
    decide (p ≤ opPrec o) && WF (rhsMin o) r && headLe (opPrec o) items &&
      chainOk p items

/-! ## Trivia and token streams, for the coverage claim

src/grammar.js lines 44-48: `extras` are whitespace (`/\s/`),
`line_comment` and `block_comment`; they may appear between any two tokens
without taking part in any production. -/

/-- A raw token: either trivia (whitespace or a comment, with its text) or a
significant token of the expression fragment. -/
inductive Tok where
  | triv (s : String)
  | sig (b : BTok)
deriving DecidableEq, Repr

/-- The significant tokens of a raw stream, in order. -/
def sigOf : List Tok → List BTok
  | [] => []
  | .triv _ :: ts => sigOf ts
  | .sig b :: ts => b :: sigOf ts

/-- Interleave a list of leaves back into a raw stream: trivia of the stream
are kept in place, and the significant positions must carry exactly the
given leaves.  Returns the reassembled stream when the leaves match. -/
def merge : List Tok → List BTok → Option (List Tok)
  | [], [] => some []
  | [], _ :: _ => none
  | .triv s :: ts, fs =>
    match merge ts fs with
    | none => none
    | some out => some (.triv s :: out)
  | .sig _ :: _, [] => none
  | .sig b :: ts, f :: fs =>
    if b = f then
      match merge ts fs with
      | none => none
      | some out => some (.sig b :: out)
    else none

/-! ## The source file rule and the statement category

src/grammar.js lines 107-110: `source_file` is
`seq(optional(shebang), repeat(_statement))`; lines 112-115: `_statement`
is `choice(expression_statement, _declaration_statement)`; lines 124-146:
`_declaration_statement` is a choice of the twenty-one declaration forms
below.  Both `_statement` and `_declaration_statement` are hidden and
inlined, so the chosen variant appears directly as a child of
`source_file`. -/

/-- The node kinds that can appear at the top level of a source file,
plus `shebang`. -/
inductive NodeKind where
  | shebang
  | expression_statement
  | const_item
  | macro_invocation
  | macro_definition
  | empty_statement
  | attribute_item
  | inner_attribute_item
  | mod_item
  | foreign_mod_item
  | struct_item
  | union_item
  | enum_item
  | type_item
  | function_item
  | function_signature_item
  | impl_item
  | trait_item
  | associated_type
  | let_declaration
  | use_declaration
  | extern_crate_declaration
  | static_item
deriving DecidableEq, Repr

/-- The members of the `_declaration_statement` choice, in source order
(src/grammar.js lines 124-146). -/
def declarationStatementKinds : List NodeKind :=
  [.const_item, .macro_invocation, .macro_definition, .empty_statement,
   .attribute_item, .inner_attribute_item, .mod_item, .foreign_mod_item,
   .struct_item, .union_item, .enum_item, .type_item, .function_item,
   .function_signature_item, .impl_item, .trait_item, .associated_type,
   .let_declaration, .use_declaration, .extern_crate_declaration,
   .static_item]

/-- Membership in the `_statement` choice (src/grammar.js lines 112-115):
an `expression_statement` or any `_declaration_statement` variant. -/
def isStatementKind (k : NodeKind) : Bool :=
  k = .expression_statement || declarationStatementKinds.contains k

/-- Whether `source_file` (src/grammar.js lines 107-110) accepts a given
sequence of direct-child node kinds: an optional leading `shebang` followed
by zero or more statements. -/
def sourceFileAccepts (l : List NodeKind) : Bool :=
  l.all isStatementKind ||
    (match l with
     | .shebang :: rest => rest.all isStatementKind
     | _ => false)

/-! ## The declared conflict list, src/grammar.js lines 91-102 -/

/-- The grammar's `conflicts` declaration, one entry per symbol group, in
source order. -/
def conflicts : List (List String) :=
  [["_type", "_pattern"],
   ["unit_type", "tuple_pattern"],
   ["scoped_name", "scoped_type_name"],
   ["parameters", "_pattern"],
   ["parameters", "tuple_struct_pattern"],
   ["type_parameters", "for_lifetimes"],
   ["array_expression"],
   ["visibility_modifier"]]

/-! ## The macro-definition pattern sub-grammar

src/grammar.js lines 176-203: `_token_pattern` is a choice of
`token_tree_pattern`, `token_repetition_pattern`, `token_binding_pattern`,
`metavariable`, and non-special tokens; `token_binding_pattern` is
`prec(1, seq(metavariable, ":", fragment_specifier))`;
`token_repetition_pattern` is
`seq("$", "(", repeat(_token_pattern), ")", optional(/[^+*?]+/),
choice("+", "*", "?"))`. -/

/-- Tokens of the macro pattern sub-grammar.  The separator regex
`/[^+*?]+/` is modelled at token granularity: any single token other than
the three repetition operators can serve as a separator. -/
inductive MTok where
  | dollar
  | lparen | rparen
  | lbracket | rbracket
  | lbrace | rbrace
  | colon
  | comma
  | plus | star | question
  | ident (s : String)
  | metavar (s : String)
  | punct (s : String)
deriving DecidableEq, Repr

/-- The three repetition operators of `token_repetition_pattern`,
src/grammar.js line 197: `choice("+", "*", "?")`. -/
inductive RepOp where
  | plus | star | question
deriving DecidableEq, Repr

/-- The repetition operator denoted by a token, if any. -/
def repOpOf : MTok → Option RepOp
  | .plus => some .plus
  | .star => some .star
  | .question => some .question
  | _ => none

/-- A parsed `_token_pattern`. -/
inductive TokPat where
  | binding (name : String) (frag : String)
  | metavar (name : String)
  | tok (t : MTok)
  | tree (close : MTok) (ps : List TokPat)
  | repetition (ps : List TokPat) (sep : Option MTok) (op : RepOp)

/-- The `fragment_specifier` choice, src/grammar.js lines 200-203, in
source order. -/
def fragment_specifier : List String :=
  ["block", "expr", "ident", "item", "lifetime", "literal", "meta", "pat",
   "path", "stmt", "tt", "ty", "vis"]

/-- Whether a word is a fragment specifier. -/
def isFrag (s : String) : Bool := fragment_specifier.contains s

/-- After the closing `)` of a repetition group: an optional separator token
(anything but the three operators) followed by a mandatory operator. -/
def parseRepTail : List MTok → Option (Option MTok × RepOp × List MTok)
  | [] => none
  | t :: rest =>
    match repOpOf t with
    | some op => some (none, op, rest)
    | none =>
      match rest with
      | [] => none
      | t2 :: rest2 =>
        match repOpOf t2 with
        | some op => some (some t, op, rest2)
        | none => none

mutual

/-- Parse one `_token_pattern` (src/grammar.js lines 176-198): a typed
binding `$name:fragment` (preferred over the bare metavariable by its
`prec(1)`), a bare metavariable, a repetition group `$( ... ) sep? op`, a
balanced delimiter tree, or any single non-special token. -/
def parsePat : Nat → List MTok → Option (TokPat × List MTok)
  | 0, _ => none
  | fuel + 1, ts =>
    match ts with
    | [] => none
    | .metavar m :: .colon :: .ident f :: rest =>
      if isFrag f then some (.binding m f, rest)
      else some (.metavar m, .colon :: .ident f :: rest)
    | .metavar m :: rest => some (.metavar m, rest)
    | .dollar :: .lparen :: rest =>
      match parsePats fuel .rparen rest with
      | none => none
      | some (ps, rest1) =>
        match parseRepTail rest1 with
        | none => none
        | some (sep, op, rest2) => some (.repetition ps sep op, rest2)
    | .lparen :: rest =>
      match parsePats fuel .rparen rest with
      | none => none
      | some (ps, rest1) => some (.tree .rparen ps, rest1)
    | .lbracket :: rest =>
      match parsePats fuel .rbracket rest with
      | none => none
      | some (ps, rest1) => some (.tree .rbracket ps, rest1)
    | .lbrace :: rest =>
      match parsePats fuel .rbrace rest with
      | none => none
      | some (ps, rest1) => some (.tree .rbrace ps, rest1)
    | .rparen :: _ => none
    | .rbracket :: _ => none
    | .rbrace :: _ => none
    | t :: rest => some (.tok t, rest)

/-- Parse `repeat(_token_pattern)` up to a closing delimiter, consuming it. -/
def parsePats : Nat → MTok → List MTok → Option (List TokPat × List MTok)
  | 0, _, _ => none
  | _ + 1, _, [] => none
  | fuel + 1, close, t :: rest =>
    if t = close then some ([], rest)
    else
      match parsePat fuel (t :: rest) with
      | none => none
      | some (p, rest1) =>
        match parsePats fuel close rest1 with
        | none => none
        | some (ps, rest2) => some (p :: ps, rest2)

end

/-! ## Line comment classification, src/grammar.js lines 1677-1701

After the opening `//`, the rule chooses between an immediate `//` (two
more slashes, precedence 2) followed by arbitrary content — a plain
comment; an immediate doc marker (precedence 2): one `/` for an outer doc
comment or one `!` for an inner doc comment; or arbitrary content
(precedence 1) — a plain comment.  At equal token precedence the lexer
takes the longer match, so `////...` is plain, `///...` outer doc,
`//!...` inner doc. -/

/-- The classification of a line comment. -/
inductive LineCommentKind where
  | plain
  | outerDoc
  | innerDoc
deriving DecidableEq, Repr

/-- Classify a line comment from the characters following the opening `//`. -/
def classifyLineComment (cs : List Char) : LineCommentKind :=
  match cs with
  | [] => .plain
  | c :: rest =>
    if c = '/' then
      if rest.head? = some '/' then .plain else .outerDoc
    else if c = '!' then .innerDoc
    else .plain

/-! ## The shebang token and the inner attribute opening

src/grammar.js line 1746: `shebang` is the regex `/#![\s]*[^\[].+/`;
lines 243-249: `inner_attribute_item` begins with the tokens
`"#" "!" "["`. -/

/-- The whitespace characters of the regex class `[\\s]` (JavaScript `\\s`):
space, tab, line feed, vertical tab, form feed, carriage return, no-break
space, ogham space mark, the Unicode space separators, the line and
paragraph separators, narrow no-break space, medium mathematical space,
ideographic space, and the byte-order mark. -/
def jsWhitespace : List Char :=
  [' ', '\t', '\n', '\r', '\u000b', '\u000c', '\u00a0', '\u1680',
   '\u2000', '\u2001', '\u2002', '\u2003', '\u2004', '\u2005', '\u2006',
   '\u2007', '\u2008', '\u2009', '\u200a', '\u2028', '\u2029', '\u202f',
   '\u205f', '\u3000', '\ufeff']

/-- Whether a character is in `[\s]`. -/
def isJsWs (c : Char) : Bool := jsWhitespace.contains c

/-- The strings matched by the shebang regex `/#![\s]*[^\[].+/`: `#!`, then
zero or more whitespace characters, then one character that is not `[`,
then at least one further character, none of them a newline (`.` does not
match newlines). -/
def shebangMatch (s : List Char) : Prop :=
  ∃ ws c rest, s = '#' :: '!' :: (ws ++ c :: rest) ∧
    (∀ w ∈ ws, isJsWs w = true) ∧ c ≠ '[' ∧ rest ≠ [] ∧
    ∀ r ∈ rest, r ≠ '\n'

/-- The three tokens that open an `inner_attribute_item`
(src/grammar.js lines 243-249). -/
def innerAttributeItemStart : List Char := ['#', '!', '[']

/-! ## Parenthesized, tuple and unit expressions,
src/grammar.js lines 1214-1229

`parenthesized_expression` is `seq("(", _expression, ")")`;
`tuple_expression` is `seq("(", repeat(attribute_item),
seq(_expression, ","), repeat(seq(_expression, ",")),
optional(_expression), ")")`; `unit_expression` is `seq("(", ")")`.
The element `_expression`s are abstracted as single atom tokens
(attribute items are omitted). -/

/-- Tokens of the parenthesized-form fragment. -/
inductive PTok where
  | lparen
  | rparen
  | comma
  | atom (s : String)
deriving DecidableEq, Repr

/-- Whether a token list matches `parenthesized_expression` exactly. -/
def parenthesized_expression : List PTok → Bool
  | [.lparen, .atom _, .rparen] => true
  | _ => false

/-- Whether a token list matches `unit_expression` exactly. -/
def unit_expression : List PTok → Bool
  | [.lparen, .rparen] => true
  | _ => false

/-- The tail of a tuple after `"(" _expression ","`:
`repeat(seq(_expression, ",")) optional(_expression) ")"`. -/
def tupleTail : List PTok → Bool
  | [.rparen] => true
  | [.atom _, .rparen] => true
  | .atom _ :: .comma :: rest => tupleTail rest
  | _ => false

/-- Whether a token list matches `tuple_expression` exactly: the first
element is always followed by a `,`. -/
def tuple_expression : List PTok → Bool
  | .lparen :: .atom _ :: .comma :: rest => tupleTail rest
  | _ => false

/-! ## Helper lemmas: the infix fragment's parser is sound and complete -/

/-- Every infix rule of the fragment is `prec.left`, so every right-operand
bound is one above the operator's own level. -/
theorem rhsMin_eq (o : OpKind) : rhsMin o = opPrec o + 1 := by
  cases o <;> rfl

/-- Reading an atom succeeds exactly on a leading atom token. -/
theorem parseAtom_some {ts : List BTok} {e : Expr} {rest : List BTok}
    (h : parseAtom ts = some (e, rest)) :
    ∃ s, ts = .atom s :: rest ∧ e = .name s := by
  cases ts with
  | nil => simp [parseAtom] at h
  | cons t ts' =>
    cases t with
    | atom s =>
      simp [parseAtom] at h
      exact ⟨s, by rw [h.2], h.1.symm⟩
    | op o => simp [parseAtom] at h

/-- Climbing stops immediately when the tokens ahead cannot extend the
expression at the current bound. -/
theorem climb_noext (fuel : Nat) (p : Int) (l : Expr) (ts : List BTok)
    (h : noExt p ts = true) : climb fuel p l ts = some (l, ts) := by
  cases ts with
  | nil => simp [climb]
  | cons t ts' =>
    cases t with
    | atom s => simp [climb, infixOf]
    | op o =>
      have hlt : opPrec o < p := by simpa [noExt] using h
      simp [climb, infixOf, if_neg (by omega : ¬ p ≤ opPrec o)]

/-- `noExt` is monotone in the bound. -/
theorem noExt_mono {p q : Int} (hpq : p ≤ q) {ts : List BTok}
    (h : noExt p ts = true) : noExt q ts = true := by
  cases ts with
  | nil => rfl
  | cons t ts' =>
    cases t with
    | atom s => rfl
    | op o =>
      have := of_decide_eq_true (by simpa [noExt] using h : decide (opPrec o < p) = true)
      simp [noExt]
      omega

/-- `flatItems` distributes over append. -/
theorem flatItems_append (xs ys : List (OpKind × Expr)) :
    flatItems (xs ++ ys) = flatItems xs ++ flatItems ys := by
  induction xs with
  | nil => rfl
  | cons hd tl ih =>
    obtain ⟨o, r⟩ := hd
    simp [flatItems, ih]

/-- A tree's fringe is its leftmost atom followed by its spine's tokens. -/
theorem fringe_decomp (e : Expr) :
    fringe e = .atom (lAtomName e) :: flatItems (spineItems e) := by
  induction e with
  | name s => rfl
  | node o l r ihl ihr =>
    simp [fringe, spineItems, lAtomName, flatItems_append, flatItems, ihl]

/-- Rebuilding after appending one spine item wraps one more node. -/
theorem rebuild_append_one (xs : List (OpKind × Expr)) (acc : Expr)
    (o : OpKind) (r : Expr) :
    rebuild acc (xs ++ [(o, r)]) = .node o (rebuild acc xs) r := by
  induction xs generalizing acc with
  | nil => rfl
  | cons hd tl ih =>
    obtain ⟨o', r'⟩ := hd
    simp [rebuild, ih]

/-- A tree is rebuilt from its leftmost atom and its spine. -/
theorem rebuild_spine (e : Expr) :
    rebuild (.name (lAtomName e)) (spineItems e) = e := by
  induction e with
  | name s => rfl
  | node o l r ihl ihr =>
    simp [spineItems, lAtomName, rebuild_append_one, ihl]

/-- The last operator of a spine with one item appended is that item's. -/
theorem lastGe_append_one (xs : List (OpKind × Expr)) (q : Int)
    (o : OpKind) (r : Expr) :
    lastGe q (xs ++ [(o, r)]) = decide (q ≤ opPrec o) := by
  induction xs with
  | nil => rfl
  | cons hd tl ih =>
    obtain ⟨o', r'⟩ := hd
    cases htl : tl ++ [(o, r)] with
    | nil => simp at htl
    | cons y ys =>
      show lastGe q ((o', r') :: (tl ++ [(o, r)])) = decide (q ≤ opPrec o)
      rw [htl]
      show lastGe q (y :: ys) = decide (q ≤ opPrec o)
      rw [← htl, ih]

/-- `topBound` of a tree bounds the last operator of its spine. -/
theorem topBound_lastGe {q : Int} {l : Expr} (h : topBound q l = true) :
    lastGe q (spineItems l) = true := by
  cases l with
  | name s => rfl
  | node o l' r =>
    rw [spineItems, lastGe_append_one]
    simpa [topBound] using h

/-- Appending one item to a consumable spine keeps it consumable, provided
the new operator clears the bound, does not exceed the previous last
operator, and carries a well-formed right operand. -/
theorem chain_append_one {p : Int} {o : OpKind} {r : Expr}
    (xs : List (OpKind × Expr)) (hch : chainOk p xs = true)
    (hlast : lastGe (opPrec o) xs = true) (hp : p ≤ opPrec o)
    (hr : WF (rhsMin o) r = true) :
    chainOk p (xs ++ [(o, r)]) = true := by
  induction xs with
  | nil => simp [chainOk, headLe, hp, hr]
  | cons hd tl ih =>
    obtain ⟨o', r'⟩ := hd
    simp only [chainOk, Bool.and_eq_true] at hch
    obtain ⟨⟨⟨hp', hr'⟩, hhd⟩, htl⟩ := hch
    have hlast' : lastGe (opPrec o) tl = true := by
      cases tl with
      | nil => rfl
      | cons y ys =>
        cases hys : ys ++ [(o, r)] with
        | nil => simp at hys
        | cons z zs => simpa [lastGe] using hlast
    have hch' : chainOk p (tl ++ [(o, r)]) = true := ih htl hlast'
    have hhd' : headLe (opPrec o') (tl ++ [(o, r)]) = true := by
      cases tl with
      | nil =>
        simp only [List.nil_append, headLe]
        have : lastGe (opPrec o) [(o', r')] = decide (opPrec o ≤ opPrec o') := rfl
        rw [this] at hlast
        have := of_decide_eq_true hlast
        simp
        omega
      | cons y ys =>
        obtain ⟨oy, ry⟩ := y
        simpa [headLe] using hhd
    simp [chainOk, hp', hr', hhd', hch']

/-- A well-formed tree's spine is consumable at the same bound. -/
theorem WF_chain {p : Int} {e : Expr} (h : WF p e = true) :
    chainOk p (spineItems e) = true := by
  induction e with
  | name s => rfl
  | node o l r ihl ihr =>
    simp only [WF, Bool.and_eq_true] at h
    obtain ⟨⟨⟨hp, htop⟩, hl⟩, hr⟩ := h
    exact chain_append_one (spineItems l) (ihl hl) (topBound_lastGe htop)
      (of_decide_eq_true hp) hr

/-- Every right operand on a spine is a proper subtree. -/
theorem spine_size {e : Expr} {o : OpKind} {r : Expr}
    (h : (o, r) ∈ spineItems e) : sizeOf r < sizeOf e := by
  induction e with
  | name s => simp [spineItems] at h
  | node o' l r' ihl ihr =>
    rw [spineItems] at h
    rcases List.mem_append.1 h with hmem | hmem
    · have h1 := ihl hmem
      have h2 : sizeOf (Expr.node o' l r') = 1 + sizeOf o' + sizeOf l + sizeOf r' := rfl
      omega
    · simp at hmem
      obtain ⟨h1, h2⟩ := hmem
      have h3 : sizeOf (Expr.node o' l r') = 1 + sizeOf o' + sizeOf l + sizeOf r' := rfl
      have h4 : sizeOf r = sizeOf r' := by rw [h2]
      omega

/-- One climbing step on an operator that clears the bound, with the right
operand's parse given. -/
theorem climb_cons_op (f : Nat) (p : Int) (l : Expr) (o : OpKind)
    {ts' : List BTok} {r0 : Expr} {ts1 : List BTok} {r : Expr} {ts2 : List BTok}
    (h : p ≤ opPrec o)
    (h1 : parseAtom ts' = some (r0, ts1))
    (h2 : climb f (rhsMin o) r0 ts1 = some (r, ts2)) :
    climb (f + 1) p l (.op o :: ts') = climb f p (.node o l r) ts2 := by
  simp [climb, infixOf, if_pos h, h1, h2]

/-- The climber consumes a consumable spine entirely, rebuilding its tree,
provided each right operand on the spine is recoverable by the climber
(the induction hypothesis of `climb_master`). -/
theorem climb_chain_aux (items : List (OpKind × Expr)) :
    ∀ (p : Int) (acc : Expr) (rest : List BTok) (fuel : Nat),
    (∀ o r, (o, r) ∈ items → ∀ p2 (rest2 : List BTok) fuel2,
      WF p2 r = true → noExt p2 rest2 = true →
      (flatItems (spineItems r) ++ rest2).length ≤ fuel2 →
      climb fuel2 p2 (.name (lAtomName r)) (flatItems (spineItems r) ++ rest2) =
        some (r, rest2)) →
    chainOk p items = true → noExt p rest = true →
    (flatItems items ++ rest).length ≤ fuel →
    climb fuel p acc (flatItems items ++ rest) = some (rebuild acc items, rest) := by
  induction items with
  | nil =>
    intro p acc rest fuel _ _ hne _
    simpa [flatItems, rebuild] using climb_noext fuel p acc rest hne
  | cons hd tl ih =>
    obtain ⟨o, r⟩ := hd
    intro p acc rest fuel hIH hch hne hfuel
    simp only [chainOk, Bool.and_eq_true] at hch
    obtain ⟨⟨⟨hp, hwfr⟩, hhd⟩, htl⟩ := hch
    have hp' : p ≤ opPrec o := of_decide_eq_true hp
    have hshape : flatItems ((o, r) :: tl) ++ rest =
        .op o :: (fringe r ++ (flatItems tl ++ rest)) := by
      simp [flatItems]
    rw [hshape] at hfuel ⊢
    cases fuel with
    | zero => simp at hfuel
    | succ f =>
      have hfr : fringe r ++ (flatItems tl ++ rest) =
          .atom (lAtomName r) :: (flatItems (spineItems r) ++ (flatItems tl ++ rest)) := by
        rw [fringe_decomp r]
        simp
      have hatom : parseAtom (fringe r ++ (flatItems tl ++ rest)) =
          some (.name (lAtomName r), flatItems (spineItems r) ++ (flatItems tl ++ rest)) := by
        rw [hfr]
        rfl
      have hnoext2 : noExt (rhsMin o) (flatItems tl ++ rest) = true := by
        rw [rhsMin_eq]
        cases tl with
        | nil =>
          simp only [flatItems, List.nil_append]
          exact noExt_mono (by omega) hne
        | cons hd2 tl2 =>
          obtain ⟨o2, r2⟩ := hd2
          have h2 : opPrec o2 ≤ opPrec o := by
            simpa [headLe] using hhd
          simp [flatItems, noExt]
          omega
      have hlen2 : (flatItems (spineItems r) ++ (flatItems tl ++ rest)).length ≤ f := by
        have hfr' := congrArg List.length hfr
        simp only [List.length_cons, List.length_append] at hfr' hfuel ⊢
        omega
      have hinner : climb f (rhsMin o) (.name (lAtomName r))
          (flatItems (spineItems r) ++ (flatItems tl ++ rest)) =
          some (r, flatItems tl ++ rest) :=
        hIH o r (by simp) (rhsMin o) (flatItems tl ++ rest) f hwfr hnoext2 hlen2
      rw [climb_cons_op f p acc o hp' hatom hinner]
      have hlen3 : (flatItems tl ++ rest).length ≤ f := by
        have hfr' := congrArg List.length hfr
        simp only [List.length_cons, List.length_append] at hfr' hfuel ⊢
        omega
      have hIH' : ∀ o2 r2, (o2, r2) ∈ tl → ∀ p2 (rest2 : List BTok) fuel2,
          WF p2 r2 = true → noExt p2 rest2 = true →
          (flatItems (spineItems r2) ++ rest2).length ≤ fuel2 →
          climb fuel2 p2 (.name (lAtomName r2)) (flatItems (spineItems r2) ++ rest2) =
            some (r2, rest2) := by
        intro o2 r2 hmem
        exact hIH o2 r2 (by simp [hmem])
      rw [ih p (.node o acc r) rest f hIH' htl hne hlen3]
      rfl

/-- Completeness at the climb level: a well-formed tree is recovered from
its own tokens, by strong induction on the tree size. -/
theorem climb_master (n : Nat) :
    ∀ (e : Expr), sizeOf e ≤ n → ∀ (p : Int) (rest : List BTok) (fuel : Nat),
    WF p e = true → noExt p rest = true →
    (flatItems (spineItems e) ++ rest).length ≤ fuel →
    climb fuel p (.name (lAtomName e)) (flatItems (spineItems e) ++ rest) =
      some (e, rest) := by
  induction n with
  | zero =>
    intro e he
    exfalso
    cases e with
    | name s =>
      have : sizeOf (Expr.name s) = 1 + sizeOf s := rfl
      have hs : 0 < sizeOf s := by cases s; simp_arith
      omega
    | node o l r =>
      have : sizeOf (Expr.node o l r) = 1 + sizeOf o + sizeOf l + sizeOf r := rfl
      have h1 : 0 < sizeOf o := by cases o <;> simp_arith
      omega
  | succ n ihn =>
    intro e he p rest fuel hwf hne hfuel
    have := climb_chain_aux (spineItems e) p (.name (lAtomName e)) rest fuel
      (fun o r hmem p2 rest2 fuel2 hwf2 hne2 hlen2 => by
        have hsz : sizeOf r < sizeOf e := spine_size hmem
        exact ihn r (by omega) p2 rest2 fuel2 hwf2 hne2 hlen2)
      (WF_chain hwf) hne hfuel
    rw [this, rebuild_spine]

/-- Completeness: parsing the tokens of a well-formed tree followed by
unconsumable tokens returns exactly that tree and those tokens. -/
theorem parse_complete {p : Int} {e : Expr} {rest : List BTok}
    (hwf : WF p e = true) (hne : noExt p rest = true) :
    parseAt p (fringe e ++ rest) = some (e, rest) := by
  have hfr : fringe e ++ rest =
      .atom (lAtomName e) :: (flatItems (spineItems e) ++ rest) := by
    rw [fringe_decomp e]
    simp
  rw [hfr]
  show (match parseAtom (.atom (lAtomName e) :: (flatItems (spineItems e) ++ rest)) with
    | none => none
    | some (l, rest') => climb rest'.length p l rest') = some (e, rest)
  have hatom : parseAtom (.atom (lAtomName e) :: (flatItems (spineItems e) ++ rest)) =
      some (.name (lAtomName e), flatItems (spineItems e) ++ rest) := rfl
  rw [hatom]
  exact climb_master (sizeOf e) e (by omega) p rest _ hwf hne (by omega)

/-- Soundness of the climber: the output tree's extra leaves are exactly the
consumed tokens. -/
theorem climb_sound :
    ∀ (fuel : Nat) (p : Int) (l : Expr) (ts : List BTok) (e : Expr) (rest : List BTok),
    climb fuel p l ts = some (e, rest) → fringe l ++ ts = fringe e ++ rest := by
  intro fuel
  induction fuel with
  | zero =>
    intro p l ts e rest h
    cases ts with
    | nil =>
      simp [climb] at h
      rw [h.1, h.2]
    | cons t ts' =>
      cases t with
      | atom s =>
        simp [climb, infixOf] at h
        rw [h.1, h.2]
      | op o =>
        by_cases hp : p ≤ opPrec o
        · simp [climb, infixOf, if_pos hp] at h
        · simp [climb, infixOf, if_neg hp] at h
          rw [h.1, h.2]
  | succ f ihf =>
    intro p l ts e rest h
    cases ts with
    | nil =>
      simp [climb] at h
      rw [h.1, h.2]
    | cons t ts' =>
      cases t with
      | atom s =>
        simp [climb, infixOf] at h
        rw [h.1, h.2]
      | op o =>
        by_cases hp : p ≤ opPrec o
        · cases hatom : parseAtom ts' with
          | none => simp [climb, infixOf, if_pos hp, hatom] at h
          | some pr =>
            obtain ⟨r0, ts1⟩ := pr
            obtain ⟨s, hts', hr0⟩ := parseAtom_some hatom
            cases hclimb : climb f (rhsMin o) r0 ts1 with
            | none => simp [climb, infixOf, if_pos hp, hatom, hclimb] at h
            | some pr2 =>
              obtain ⟨r, ts2⟩ := pr2
              rw [climb_cons_op f p l o hp hatom hclimb] at h
              have h1 := ihf (rhsMin o) r0 ts1 r ts2 hclimb
              have h2 := ihf p (.node o l r) ts2 e rest h
              rw [fringe] at h2
              rw [hr0] at h1
              rw [hts']
              simp only [fringe] at h1
              simp only [List.append_assoc, List.cons_append, List.nil_append] at h1 h2 ⊢
              rw [← h2, ← h1]
        · simp [climb, infixOf, if_neg hp] at h
          rw [h.1, h.2]

/-- Soundness: a successful parse's tree has exactly the consumed tokens as
its fringe. -/
theorem parse_sound {p : Int} {ts : List BTok} {e : Expr} {rest : List BTok}
    (h : parseAt p ts = some (e, rest)) : fringe e ++ rest = ts := by
  unfold parseAt at h
  cases hatom : parseAtom ts with
  | none => rw [hatom] at h; simp at h
  | some pr =>
    obtain ⟨l, rest0⟩ := pr
    rw [hatom] at h
    simp only at h
    obtain ⟨s, hts, hl⟩ := parseAtom_some hatom
    have h1 := climb_sound rest0.length p l rest0 e rest h
    rw [hts, hl] at *
    simp only [fringe, List.cons_append, List.nil_append] at h1 ⊢
    rw [← h1]

/-- Reassembling a stream with its own significant tokens is the identity. -/
theorem merge_self : ∀ ts : List Tok, merge ts (sigOf ts) = some ts := by
  intro ts
  induction ts with
  | nil => rfl
  | cons t ts' ih =>
    cases t with
    | triv s => simp [merge, sigOf, ih]
    | sig b => simp [merge, sigOf, ih]

/-! ## The claims -/

/-- C1, counterexample: the claim says `a = b = c` (and `a += b += c`)
groups to the right, the outer node's right-hand side being itself an
assignment.  With the declared `prec.left` annotations the parse instead
groups to the left: the outer node's `right` field is the plain name `c`,
not an assignment node. -/
theorem c1_counterexample :
    parseExpr [.atom "a", .op .asg, .atom "b", .op .asg, .atom "c"] =
      some (.node .asg (.node .asg (.name "a") (.name "b")) (.name "c"), []) ∧
    rightField (.node .asg (.node .asg (.name "a") (.name "b")) (.name "c")) =
      some (.name "c") ∧
    isAssignNode (.name "c") = false ∧
    parseExpr [.atom "a", .op (.casg .addAssign), .atom "b",
        .op (.casg .addAssign), .atom "c"] =
      some (.node (.casg .addAssign)
        (.node (.casg .addAssign) (.name "a") (.name "b")) (.name "c"), []) :=
  ⟨rfl, rfl, rfl, rfl⟩

/-- C1, amended: `assignment_expression` and `compound_assignment_expr` are
declared `prec.left` (left-associative), so `a = b = c` and `a += b += c`
parse with the outer node's left-hand side being the inner assignment. -/
theorem c1_left_assoc :
    assignment_expression.assoc = Assoc.left ∧
    compound_assignment_expr.assoc = Assoc.left ∧
    (∀ a b c : String,
      parseExpr [.atom a, .op .asg, .atom b, .op .asg, .atom c] =
        some (.node .asg (.node .asg (.name a) (.name b)) (.name c), [])) ∧
    (∀ (a b c : String) (o : CompOp),
      parseExpr [.atom a, .op (.casg o), .atom b, .op (.casg o), .atom c] =
        some (.node (.casg o) (.node (.casg o) (.name a) (.name b)) (.name c), [])) := by
  refine ⟨rfl, rfl, fun a b c => rfl, fun a b c o => ?_⟩
  cases o <;> rfl

/-- C2: the `PREC` table orders the seventeen levels exactly as the spec
lists them, from `closure` (lowest) up to `call`; the `?`-try rule's level
lies strictly between the unary rule's and the call/index/field/await
rules'; and in `a + b * c` the multiplication node is the right operand of
the addition node. -/
theorem c2_precedence :
    (PREC.closure < PREC.assign ∧ PREC.assign < PREC.range ∧
     PREC.range < PREC.or ∧ PREC.or < PREC.and ∧
     PREC.and < PREC.comparative ∧ PREC.comparative < PREC.bitor ∧
     PREC.bitor < PREC.bitxor ∧ PREC.bitxor < PREC.bitand ∧
     PREC.bitand < PREC.shift ∧ PREC.shift < PREC.additive ∧
     PREC.additive < PREC.multiplicative ∧ PREC.multiplicative < PREC.cast ∧
     PREC.cast < PREC.unary ∧ PREC.unary < PREC.try_ ∧
     PREC.try_ < PREC.field ∧ PREC.field < PREC.call) ∧
    (unary_expression.level < try_expression.level ∧
     try_expression.level < call_expression.level ∧
     try_expression.level < index_expression.level ∧
     try_expression.level < field_expression.level ∧
     try_expression.level < await_expression.level) ∧
    parseExpr [.atom "a", .op (.bin .add), .atom "b", .op (.bin .mul), .atom "c"] =
      some (.node (.bin .add) (.name "a")
        (.node (.bin .mul) (.name "b") (.name "c")), []) :=
  ⟨by decide, by decide, rfl⟩

/-- C3, counterexample: the claim says a `let` declaration never appears as
a direct child of the source-file root, but `_declaration_statement`
(inlined into `source_file`'s statements) includes `let_declaration`, so
the root accepts a `let` declaration as a direct child. -/
theorem c3_counterexample :
    sourceFileAccepts [NodeKind.let_declaration] = true ∧
    sourceFileAccepts
      [NodeKind.shebang, NodeKind.function_item, NodeKind.let_declaration] = true := by
  constructor <;> decide

/-- C3, amended: the root is an optional shebang followed by zero or more
statements, and the statement category uniformly includes every
declaration-statement form — `let_declaration` among them, so `let`
declarations are permitted at top level. -/
theorem c3_top_level :
    NodeKind.let_declaration ∈ declarationStatementKinds ∧
    (∀ rest : List NodeKind, rest.all isStatementKind = true →
      sourceFileAccepts rest = true ∧
      sourceFileAccepts (NodeKind.shebang :: rest) = true) := by
  refine ⟨by decide, ?_⟩
  intro rest h
  constructor
  · simp [sourceFileAccepts, h]
  · simp [sourceFileAccepts, h]

/-- C3, witness for the amended theorem at a concrete statement list. -/
theorem c3_witness :
    sourceFileAccepts [NodeKind.function_item] = true ∧
    sourceFileAccepts [NodeKind.shebang, NodeKind.function_item] = true :=
  c3_top_level.2 [NodeKind.function_item] (by decide)

/-- C4: the precedence/associativity policy is unambiguous, hence
deterministic: two well-formed parse trees over the same token sequence are
structurally identical (and the parser itself is a function, so parsing the
same tokens twice trivially yields the same tree). -/
theorem c4_unambiguous :
    ∀ (p : Int) (e1 e2 : Expr), WF p e1 = true → WF p e2 = true →
      fringe e1 = fringe e2 → e1 = e2 := by
  intro p e1 e2 h1 h2 hf
  have hp1 := @parse_complete p e1 [] h1 rfl
  have hp2 := @parse_complete p e2 [] h2 rfl
  rw [hf] at hp1
  have := hp1.symm.trans hp2
  simpa using this

/-- C4, witness: the unambiguity theorem applied at a concrete tree. -/
theorem c4_witness :
    Expr.node (.bin .add) (.name "a") (.name "b") =
      Expr.node (.bin .add) (.name "a") (.name "b") :=
  c4_unambiguous PREC.closure _ _ (by decide) (by decide) rfl

/-- C5: full coverage.  Every successful parse's tree carries exactly the
consumed tokens as its leaf fringe (each node's children concatenate to
exactly the node's own span), and when a whole stream's significant tokens
parse, interleaving the tree's leaves with the stream's trivia in their
original positions reproduces the input stream exactly. -/
theorem c5_coverage :
    (∀ (p : Int) (ts : List BTok) (e : Expr) (rest : List BTok),
      parseAt p ts = some (e, rest) → fringe e ++ rest = ts) ∧
    (∀ (ts : List Tok) (e : Expr),
      parseExpr (sigOf ts) = some (e, []) → merge ts (fringe e) = some ts) := by
  constructor
  · intro p ts e rest h
    exact parse_sound h
  · intro ts e h
    have h1 : fringe e ++ [] = sigOf ts := parse_sound h
    rw [List.append_nil] at h1
    rw [h1]
    exact merge_self ts

/-- C5, witness: coverage at a concrete stream with whitespace and a
comment as trivia. -/
theorem c5_witness :
    merge [Tok.triv " ", Tok.sig (.atom "a"), Tok.triv " ",
        Tok.sig (.op (.bin .add)), Tok.sig (.atom "b")]
      (fringe (.node (.bin .add) (.name "a") (.name "b"))) =
    some [Tok.triv " ", Tok.sig (.atom "a"), Tok.triv " ",
        Tok.sig (.op (.bin .add)), Tok.sig (.atom "b")] :=
  c5_coverage.2 _ _ (by rfl)

/-- C6, counterexample: the claim's enumeration includes a
`parameters`/`tuple_pattern` group, but the grammar's declared group pairs
`parameters` with the whole `_pattern` supertype, not with
`tuple_pattern`. -/
theorem c6_counterexample :
    ["parameters", "tuple_pattern"] ∉ conflicts ∧
    ["parameters", "_pattern"] ∈ conflicts := by
  constructor <;> decide

/-- C6, amended: the declared conflict list consists of exactly the eight
groups of src/grammar.js lines 91-102 — type vs pattern, unit type vs tuple
pattern, scoped name vs scoped type name, parameters vs the pattern
supertype, parameters vs tuple-struct pattern, type parameters vs
for-lifetimes, the array-expression self-ambiguity, and the visibility
modifier — and no others. -/
theorem c6_conflict_list :
    ∀ g : List String, g ∈ conflicts ↔
      (g = ["_type", "_pattern"] ∨ g = ["unit_type", "tuple_pattern"] ∨
       g = ["scoped_name", "scoped_type_name"] ∨ g = ["parameters", "_pattern"] ∨
       g = ["parameters", "tuple_struct_pattern"] ∨
       g = ["type_parameters", "for_lifetimes"] ∨
       g = ["array_expression"] ∨ g = ["visibility_modifier"]) := by
  intro g
  simp [conflicts]

/-- C7: the fragment specifiers are exactly the thirteen listed kinds, a
repetition operator token is exactly one of `+ * ?`, and `$($x:expr),*`
parses as a repetition pattern holding one typed binding (`x`, fragment
`expr`), separator `,`, operator `*`. -/
theorem c7_macro_pattern :
    fragment_specifier = ["block", "expr", "ident", "item", "lifetime",
      "literal", "meta", "pat", "path", "stmt", "tt", "ty", "vis"] ∧
    (∀ (t : MTok) (o : RepOp), repOpOf t = some o →
      t = MTok.plus ∨ t = MTok.star ∨ t = MTok.question) ∧
    parsePat 8 [.dollar, .lparen, .metavar "x", .colon, .ident "expr",
        .rparen, .comma, .star] =
      some (.repetition [.binding "x" "expr"] (some .comma) .star, []) := by
  refine ⟨rfl, ?_, rfl⟩
  intro t o h
  cases t <;> simp_all [repOpOf]

/-- C7, witness: the operator classification applied at `+`. -/
theorem c7_witness :
    MTok.plus = MTok.plus ∨ MTok.plus = MTok.star ∨ MTok.plus = MTok.question :=
  c7_macro_pattern.2.1 MTok.plus RepOp.plus rfl

/-- C8: after the opening `//`, two further slashes (four or more in total)
make a plain comment, a `!` makes an inner doc comment, and a single
further slash (not followed by another) makes an outer doc comment. -/
theorem c8_line_comments :
    (∀ rest : List Char, classifyLineComment ('/' :: '/' :: rest) = .plain) ∧
    (∀ rest : List Char, classifyLineComment ('!' :: rest) = .innerDoc) ∧
    (∀ rest : List Char, rest.head? ≠ some '/' →
      classifyLineComment ('/' :: rest) = .outerDoc) := by
  refine ⟨fun rest => rfl, fun rest => rfl, ?_⟩
  intro rest h
  cases rest with
  | nil => rfl
  | cons c t =>
    have hc : c ≠ '/' := by simpa using h
    simp [classifyLineComment, hc]

/-- C8, witness: classification applied at `///a` (content after `//` is
`/a`). -/
theorem c8_witness :
    classifyLineComment ['/', 'a'] = LineCommentKind.outerDoc :=
  c8_line_comments.2.2 ['a'] (by decide)

/-- C9: a shebang can only be the first child of `source_file` and appears
at most once; every string the shebang regex accepts starts with `#!` and
its third character is not `[`; and no `#![...]` text (the opening of an
`inner_attribute_item`) is accepted by the shebang regex. -/
theorem c9_shebang :
    (∀ l : List NodeKind, sourceFileAccepts l = true →
      ∀ i, l.get? i = some NodeKind.shebang → i = 0) ∧
    (∀ s : List Char, shebangMatch s →
      s.take 2 = ['#', '!'] ∧ s.get? 2 ≠ some '[') ∧
    (∀ t : List Char, ¬ shebangMatch (innerAttributeItemStart ++ t)) := by
  refine ⟨?_, ?_, ?_⟩
  · intro l hl i hi
    simp only [sourceFileAccepts] at hl
    rw [Bool.or_eq_true] at hl
    rcases hl with hall | hmatch
    · exfalso
      have hmem := List.get?_mem hi
      have := List.all_eq_true.1 hall _ hmem
      exact absurd this (by decide)
    · cases l with
      | nil => simp at hmatch
      | cons k l' =>
        cases k <;> simp at hmatch
        cases i with
        | zero => rfl
        | succ j =>
          exfalso
          have hj : l'.get? j = some NodeKind.shebang := by simpa using hi
          have hmem := List.get?_mem hj
          have := hmatch _ hmem
          exact absurd this (by decide)
  · intro s hs
    obtain ⟨ws, c, rest, hsplit, hws, hc, hrest, hnl⟩ := hs
    subst hsplit
    refine ⟨rfl, ?_⟩
    cases ws with
    | nil => simpa using hc
    | cons w ws' =>
      have hw := hws w (by simp)
      have hwne : w ≠ '[' := by
        intro he
        rw [he] at hw
        exact absurd hw (by decide)
      simpa using hwne
  · intro t hs
    obtain ⟨ws, c, rest, hsplit, hws, hc, hrest, hnl⟩ := hs
    have h3 : '[' :: t = ws ++ c :: rest := by
      simpa [innerAttributeItemStart] using hsplit
    cases ws with
    | nil =>
      simp at h3
      exact hc h3.1.symm
    | cons w ws' =>
      have hw := hws w (by simp)
      have h4 : some '[' = some w := by
        have := congrArg List.head? h3
        simpa using this
      have h5 : w = '[' := by
        injection h4 with h4'
        exact h4'.symm
      rw [h5] at hw
      exact absurd hw (by decide)

/-- C9, witness: the regex characterization applied at `#!/x`. -/
theorem c9_witness :
    (['#', '!', '/', 'x'] : List Char).take 2 = ['#', '!'] ∧
    (['#', '!', '/', 'x'] : List Char).get? 2 ≠ some '[' :=
  c9_shebang.2.1 ['#', '!', '/', 'x']
    ⟨[], '/', ['x'], rfl, by simp, by decide, by decide, by decide⟩

/-- C10: `(e)` matches `parenthesized_expression` and neither
`tuple_expression` nor `unit_expression`; every `tuple_expression` match
contains a comma (the first element always carries one, so `(e,)` is a
one-element tuple); and `()` matches exactly `unit_expression`. -/
theorem c10_paren_forms :
    (∀ s : String,
      parenthesized_expression [PTok.lparen, PTok.atom s, PTok.rparen] = true ∧
      tuple_expression [PTok.lparen, PTok.atom s, PTok.rparen] = false ∧
      unit_expression [PTok.lparen, PTok.atom s, PTok.rparen] = false) ∧
    (∀ ts : List PTok, tuple_expression ts = true → PTok.comma ∈ ts) ∧
    (∀ s : String,
      tuple_expression [PTok.lparen, PTok.atom s, PTok.comma, PTok.rparen] = true) ∧
    (unit_expression [PTok.lparen, PTok.rparen] = true ∧
     parenthesized_expression [PTok.lparen, PTok.rparen] = false ∧
     tuple_expression [PTok.lparen, PTok.rparen] = false) := by
  refine ⟨fun s => ⟨rfl, rfl, rfl⟩, ?_, fun s => rfl, rfl, rfl, rfl⟩
  intro ts h
  cases ts with
  | nil => simp [tuple_expression] at h
  | cons t1 ts1 =>
    cases t1 <;> try simp [tuple_expression] at h
    cases ts1 with
    | nil => simp [tuple_expression] at h
    | cons t2 ts2 =>
      cases t2 <;> try simp [tuple_expression] at h
      cases ts2 with
      | nil => simp [tuple_expression] at h
      | cons t3 ts3 =>
        cases t3 <;> try simp [tuple_expression] at h
        simp

/-- C10, witness: the comma fact applied at `(e,)`. -/
theorem c10_witness :
    PTok.comma ∈ [PTok.lparen, PTok.atom "e", PTok.comma, PTok.rparen] :=
  c10_paren_forms.2.1 [PTok.lparen, PTok.atom "e", PTok.comma, PTok.rparen] (by rfl)

end RustGrammar
